import Mathlib

/-
Verification of the pomodoro session core (src/pomo.rs).

Shallow embedding conventions:
- Instants (chrono DateTime<Utc>) and durations (chrono Duration) are both
  modelled as Int, measured in one uniform integer time unit; chrono duration
  arithmetic (add, sub, multiply, divide by an integer with truncation toward
  zero) maps to Int arithmetic with Int.tdiv.
- u32 / usize counters become Nat.
- Rust panics (assert!, failed unwrap) are modelled by Option: none is a panic.
- The unbounded search loop in adjust_end_to is modelled with explicit fuel;
  running out of fuel is a modelling artifact distinct from a panic, so
  adjust_end_to returns Option AdjustOutcome: none means the fuel ran out,
  some .panic means the Rust code aborts on its assert.
-/

inductive PomodoroState where
  | NotStarted
  | Work
  | Break
  | Done
deriving DecidableEq

structure PomodoroSection where
  duration : Int
  state : PomodoroState
deriving DecidableEq

structure Pomodoro where
  sections : List PomodoroSection
  start : Int
  active : Bool
  pause_started : Option Int
deriving DecidableEq

structure CurrentPomoState where
  current_state : PomodoroState
  next_state : PomodoroState
  duration : Int
  completed_repetitions : Nat
  total_repetitions : Nat
  pause : Bool
deriving DecidableEq

inductive CurrentSection where
  | Inactive
  | BeforeStart
  | Section (i : Nat)
  | AferEnd
deriving DecidableEq

structure PomodoroSetting where
  start : Int
  repetitions : Nat
  work_time : Int
  break_time : Int
deriving DecidableEq

/-- Sum of the durations of a list of sections; models the
map(duration).reduce(+).unwrap_or(zero) idiom of the source. -/
def sumDur (l : List PomodoroSection) : Int :=
  (l.map (fun s => s.duration)).sum

/-- Placeholder section for Option.getD at call sites where the source
uses unwrap on an index that is always in bounds. -/
def dummySection : PomodoroSection :=
  { duration := 0, state := PomodoroState.Done }

/-- Pomodoro::repetitions: number of Work sections. -/
def Pomodoro.repetitions (p : Pomodoro) : Nat :=
  (p.sections.filter (fun s => s.state == PomodoroState.Work)).length

/-- The scanning loop of Pomodoro::current_section: walks the sections
accumulating the running start time, returning the first section with
start < current_time and start + duration > current_time. -/
def sectionScan : List PomodoroSection → Int → Int → Nat → CurrentSection
  | [], _, _, _ => CurrentSection.AferEnd
  | s :: rest, start, current_time, i =>
      if start < current_time ∧ start + s.duration > current_time then
        CurrentSection.Section i
      else
        sectionScan rest (start + s.duration) current_time (i + 1)

/-- Pomodoro::current_section. -/
def Pomodoro.current_section (p : Pomodoro) (t : Int) : CurrentSection :=
  if !p.active then
    CurrentSection.Inactive
  else
    let time := p.pause_started.getD t
    if p.start > time then
      CurrentSection.BeforeStart
    else
      sectionScan p.sections p.start time 0

/-- Running start time of section i: start plus the durations of the first
i sections; computed twice in the source (Pomodoro::state and
Pomodoro::set_unpause) by the same take/reduce expression. -/
def Pomodoro.sectionStartTime (p : Pomodoro) (i : Nat) : Int :=
  p.start + sumDur (p.sections.take i)

/-- Pomodoro::state. -/
def Pomodoro.state (p : Pomodoro) (t : Int) : CurrentPomoState :=
  let time := p.pause_started.getD t
  let pause := p.pause_started.isSome
  match p.current_section t with
  | CurrentSection.Inactive =>
      { current_state := PomodoroState.Done
        next_state := PomodoroState.Done
        duration := 0
        completed_repetitions := 0
        total_repetitions := 0
        pause := pause }
  | CurrentSection.BeforeStart =>
      { current_state := PomodoroState.NotStarted
        next_state := ((p.sections[0]?).map (fun s => s.state)).getD PomodoroState.Done
        duration := p.start - time
        completed_repetitions := 0
        total_repetitions := p.repetitions
        pause := pause }
  | CurrentSection.Section i =>
      let current_sec := (p.sections[i]?).getD dummySection
      let start_time := p.sectionStartTime i
      let next_section := p.sections[i + 1]?
      let completed :=
        ((p.sections.take (i + 1)).filter (fun s => s.state == PomodoroState.Work)).length
      { current_state := current_sec.state
        next_state := (next_section.map (fun sec => sec.state)).getD PomodoroState.Done
        duration := (start_time + current_sec.duration) - time
        completed_repetitions := completed
        total_repetitions := p.repetitions
        pause := pause }
  | CurrentSection.AferEnd =>
      { current_state := PomodoroState.Done
        next_state := PomodoroState.Done
        duration := 0
        completed_repetitions := p.repetitions
        total_repetitions := p.repetitions
        pause := pause }

/-- Pomodoro::set_active. -/
def Pomodoro.set_active (p : Pomodoro) (a : Bool) : Pomodoro :=
  { p with active := a }

/-- Pomodoro::set_pause. -/
def Pomodoro.set_pause (p : Pomodoro) (pause_start : Int) : Pomodoro :=
  { p with pause_started := some pause_start }

/-- Vec::insert on the section list: insert at an index, shifting the tail.
The middle clause (index past the end) is unreachable at both call sites,
where the index is always at most the length (Vec::insert would panic). -/
def insertAt : List PomodoroSection → Nat → PomodoroSection → List PomodoroSection
  | l, 0, a => a :: l
  | [], _ + 1, a => [a]
  | x :: l, n + 1, a => x :: insertAt l n a

/-- Pomodoro::set_unpause. The assert on the pre-pause remainder duration is
modelled by the if guard: none models the panicking branch. -/
def Pomodoro.set_unpause (p : Pomodoro) (pause_end : Int) : Option Pomodoro :=
  match p.pause_started with
  | none => some p
  | some pause_start =>
      match p.current_section pause_start with
      | CurrentSection.Section s =>
          let section_start_time := p.sectionStartTime s
          let new_section_dur := pause_start - section_start_time
          if new_section_dur > 0 then
            let split_section := (p.sections[s]?).getD dummySection
            some { p with
                   sections :=
                     insertAt
                       (insertAt
                         (p.sections.set s
                           { duration := new_section_dur, state := split_section.state })
                         (s + 1)
                         { duration := pause_end - pause_start
                           state := PomodoroState.Break })
                       (s + 2)
                       { duration := split_section.duration - new_section_dur
                         state := split_section.state }
                   pause_started := none }
          else
            none
      | _ => some { p with pause_started := none }

/-- The section-building loop of PomodoroSetting::to_pomodoro: for each
i in 0..repetitions push a Work section, and push a Break section after it
unless i is the last index. -/
def buildSections (st : PomodoroSetting) : List PomodoroSection :=
  (List.range st.repetitions).foldl
    (fun acc i =>
      let acc2 := acc ++ [{ duration := st.work_time, state := PomodoroState.Work }]
      if i < st.repetitions - 1 then
        acc2 ++ [{ duration := st.break_time, state := PomodoroState.Break }]
      else
        acc2)
    []

/-- PomodoroSetting::to_pomodoro. -/
def PomodoroSetting.to_pomodoro (st : PomodoroSetting) : Pomodoro :=
  { sections := buildSections st
    start := st.start
    active := true
    pause_started := none }

/-- The work-time formula f of PomodoroSetting::adjust_end_to:
f(r) = d / r - (b * (r - 1)) / r with truncating division. -/
def fCalc (d b : Int) (r : Int) : Int :=
  Int.tdiv d r - Int.tdiv (b * (r - 1)) r

/-- Initial value of w_delta in the search loop (i64::max_value()). -/
def I64_MAX : Int := 9223372036854775807

/-- Deviation of the candidate work time from the requested one at
repetition count r: abs((f(reps) - work_time).num_seconds()). -/
def wDelta (d b w r : Int) : Int := |fCalc d b r - w|

/-- The search loop of PomodoroSetting::adjust_end_to, with explicit fuel;
none means the fuel ran out before the loop exited. -/
def adjustLoop (d b w : Int) : Nat → Int → Int → Option Int
  | 0, _, _ => none
  | fuel + 1, reps, w_delta =>
      let new_w_delta := wDelta d b w reps
      if new_w_delta > w_delta then
        some reps
      else
        adjustLoop d b w fuel (reps + 1) new_w_delta

/-- Outcome of adjust_end_to: the Rust function either aborts on its
assert (panic) or mutates the setting in place (ok with the new value). -/
inductive AdjustOutcome where
  | panic
  | ok (s : PomodoroSetting)
deriving DecidableEq

/-- PomodoroSetting::adjust_end_to, fuelled. -/
def PomodoroSetting.adjust_end_to (st : PomodoroSetting) (end_time : Int)
    (fuel : Nat) : Option AdjustOutcome :=
  if end_time > st.start then
    let d := end_time - st.start
    match adjustLoop d st.break_time st.work_time fuel 1 I64_MAX with
    | none => none
    | some reps =>
        let reps2 := reps - 1
        some (AdjustOutcome.ok
          { st with
            repetitions := reps2.toNat
            work_time := fCalc d st.break_time reps2 })
  else
    some AdjustOutcome.panic

/-- The adjust_end_to search loop exits after finitely many iterations on
the given setting and target end time. -/
def terminatesOn (st : PomodoroSetting) (t : Int) : Prop :=
  ∃ fuel o, st.adjust_end_to t fuel = some o

/-- Every section duration is strictly positive. -/
def allPositive (l : List PomodoroSection) : Prop :=
  ∀ sec ∈ l, 0 < sec.duration

/- Concrete sessions and settings used by witnesses and counterexamples. -/

/-- Active session with one Work section of 600 units starting at 0. -/
def pomoOneWork : Pomodoro :=
  { sections := [{ duration := 600, state := PomodoroState.Work }]
    start := 0
    active := true
    pause_started := none }

/-- Builder input for the scenario 2p10b5 at start 0 (units: minutes). -/
def settingTwoReps : PomodoroSetting :=
  { start := 0, repetitions := 2, work_time := 10, break_time := 5 }

/-- The session built from settingTwoReps: sections Work 10, Break 5, Work 10. -/
def pomoTwoReps : Pomodoro := settingTwoReps.to_pomodoro

/-- Active session with one Work section of 10 units starting at 0. -/
def pomoShortWork : Pomodoro :=
  { sections := [{ duration := 10, state := PomodoroState.Work }]
    start := 0
    active := true
    pause_started := none }

/-- Result of pausing pomoShortWork at 5 and unpausing at the same instant 5:
the inserted Break section has duration 0. -/
def pomoZeroBreak : Pomodoro :=
  { sections := [{ duration := 5, state := PomodoroState.Work },
                 { duration := 0, state := PomodoroState.Break },
                 { duration := 5, state := PomodoroState.Work }]
    start := 0
    active := true
    pause_started := none }

/-- pomoShortWork paused at instant 3. -/
def pomoPausedAt3 : Pomodoro :=
  { sections := [{ duration := 10, state := PomodoroState.Work }]
    start := 0
    active := true
    pause_started := some 3 }

/-- Setting whose start is 100 (for the target_end before start scenario). -/
def settingLateStart : PomodoroSetting :=
  { start := 100, repetitions := 4, work_time := 2700, break_time := 900 }

/-- Setting with work and break durations both 0 (parseable as 4p0b0). -/
def settingZeroWork : PomodoroSetting :=
  { start := 0, repetitions := 4, work_time := 0, break_time := 0 }

/-- Setting for the classic 4p45b15 input in seconds. -/
def settingClassic : PomodoroSetting :=
  { start := 0, repetitions := 4, work_time := 2700, break_time := 900 }

/- ------------------------------------------------------------------ -/
/- Theorems                                                           -/
/- ------------------------------------------------------------------ -/

/-- Claim C2 (code bug evidence): on an active unpaused session starting at 0
with a single positive Work section, current_section at the instant exactly
equal to start returns AferEnd, and state reports Done with all repetitions
completed; the claim (and the spec) say that instant belongs to section 0.
The scan uses the strict comparison start < current_time, so every instant
lying exactly on a section start, including the session start itself, falls
through the scan to AferEnd. -/
theorem currentSection_at_start_is_AferEnd :
    pomoOneWork.current_section 0 = CurrentSection.AferEnd ∧
    pomoOneWork.start = 0 ∧
    pomoOneWork.active = true ∧
    pomoOneWork.pause_started = none ∧
    (pomoOneWork.state 0).current_state = PomodoroState.Done ∧
    (pomoOneWork.state 0).completed_repetitions = 1 := by
  refine ⟨rfl, rfl, rfl, rfl, rfl, rfl⟩

/-- Claim C3: while the pause marker is set, state is frozen: its output does
not depend on the wall-clock argument. -/
theorem state_frozen_while_paused (p : Pomodoro) (ps t1 t2 : Int)
    (h : p.pause_started = some ps) :
    p.state t1 = p.state t2 := by
  simp only [Pomodoro.state, Pomodoro.current_section, h, Option.getD_some]

/-- Witness for state_frozen_while_paused at a concrete paused session. -/
theorem state_frozen_while_paused_witness :
    pomoPausedAt3.pause_started = some 3 ∧
    pomoPausedAt3.state 100 = pomoPausedAt3.state 5 :=
  ⟨rfl, state_frozen_while_paused pomoPausedAt3 3 100 5 rfl⟩

/-- Claim C4 counterexample: for the session built from 2p10b5 at start 0,
state at instant 3 reports completed_repetitions = 1, not 0 as the claim
states (the currently elapsing Work section is already counted). -/
theorem state_at_3_claim_false :
    ¬ ((pomoTwoReps.state 3).current_state = PomodoroState.Work ∧
       (pomoTwoReps.state 3).duration = 7 ∧
       (pomoTwoReps.state 3).completed_repetitions = 0) := by
  decide

/-- Claim C4 amended: for the session built from 2p10b5 at start 0, state at
instant 3 returns current Work, next Break, remaining duration 7,
completed repetitions 1 of total 2, not paused. -/
theorem state_at_3_amended :
    pomoTwoReps.state 3 =
      { current_state := PomodoroState.Work
        next_state := PomodoroState.Break
        duration := 7
        completed_repetitions := 1
        total_repetitions := 2
        pause := false } := by
  decide

/-- Claim C6 counterexample: calling adjust_end_to with a target end before
the start does not surface a failure result to the caller: the code aborts
the process on its assert (modelled as the panic outcome). -/
theorem adjust_end_before_start_panics_concrete :
    settingLateStart.start = 100 ∧
    settingLateStart.adjust_end_to 50 5 = some AdjustOutcome.panic := by
  decide

/-- Claim C6 amended: for every setting and every target end at or before the
start, adjust_end_to aborts on its assert (panic outcome) before reading or
writing any field, so no partial mutation occurs; the failure is a process
abort, not a returned result. -/
theorem adjust_end_before_start_panics (st : PomodoroSetting) (t : Int)
    (fuel : Nat) (h : t ≤ st.start) :
    st.adjust_end_to t fuel = some AdjustOutcome.panic := by
  unfold PomodoroSetting.adjust_end_to
  rw [if_neg (by omega)]

/-- Witness for adjust_end_before_start_panics at a concrete setting. -/
theorem adjust_end_before_start_panics_witness :
    (50 : Int) ≤ settingLateStart.start ∧
    settingLateStart.adjust_end_to 50 7 = some AdjustOutcome.panic :=
  ⟨by decide, adjust_end_before_start_panics settingLateStart 50 7 (by decide)⟩

/-- Claim C10: for every session and instant, the reported completed
repetitions never exceed the reported total repetitions. -/
theorem completed_le_total (p : Pomodoro) (t : Int) :
    (p.state t).completed_repetitions ≤ (p.state t).total_repetitions := by
  cases h : p.current_section t with
  | Inactive => simp [Pomodoro.state, h]
  | BeforeStart => simp [Pomodoro.state, h]
  | AferEnd => simp [Pomodoro.state, h]
  | Section i =>
      simp only [Pomodoro.state, h]
      exact List.Sublist.length_le
        (List.Sublist.filter _ (List.take_sublist (i + 1) p.sections))

theorem sumDur_nil : sumDur [] = 0 := rfl

theorem sumDur_cons (a : PomodoroSection) (l : List PomodoroSection) :
    sumDur (a :: l) = a.duration + sumDur l := by
  simp [sumDur]

theorem sumDur_append (l1 l2 : List PomodoroSection) :
    sumDur (l1 ++ l2) = sumDur l1 + sumDur l2 := by
  simp [sumDur]

/-- Characterization of the scanning loop: a Section result pins the index
below the length and places the query instant strictly between the running
start of that section and its end. -/
theorem sectionScan_section (l : List PomodoroSection) :
    ∀ (start t : Int) (i s : Nat),
      sectionScan l start t i = CurrentSection.Section s →
      i ≤ s ∧ s - i < l.length ∧
      start + sumDur (l.take (s - i)) < t ∧
      t < start + sumDur (l.take (s - i)) +
            ((l[s - i]?).getD dummySection).duration := by
  induction l with
  | nil =>
      intro start t i s h
      simp [sectionScan] at h
  | cons c rest ih =>
      intro start t i s h
      rw [sectionScan] at h
      by_cases hc : start < t ∧ start + c.duration > t
      · rw [if_pos hc] at h
        have hs : i = s := by
          injection h
        subst hs
        simp only [Nat.sub_self, List.take_zero, sumDur_nil, add_zero,
          List.getElem?_cons_zero, Option.getD_some, List.length_cons]
        exact ⟨Nat.le_refl i, Nat.succ_pos _, hc.1, by linarith [hc.2]⟩
      · rw [if_neg hc] at h
        obtain ⟨h1, h2, h3, h4⟩ := ih (start + c.duration) t (i + 1) s h
        have hk : s - i = (s - (i + 1)) + 1 := by omega
        rw [hk, List.take_succ_cons, sumDur_cons, List.getElem?_cons_succ]
        refine ⟨by omega, by simp only [List.length_cons]; omega, by linarith, by linarith⟩

/-- A Section result of current_section forces the session active and places
the effective time strictly inside the window of the indexed section. -/
theorem current_section_bounds (p : Pomodoro) (t : Int) (s : Nat)
    (h : p.current_section t = CurrentSection.Section s) :
    p.active = true ∧ s < p.sections.length ∧
    p.sectionStartTime s < p.pause_started.getD t ∧
    p.pause_started.getD t < p.sectionStartTime s +
      ((p.sections[s]?).getD dummySection).duration := by
  unfold Pomodoro.current_section at h
  cases ha : p.active with
  | false => rw [ha] at h; simp at h
  | true =>
      rw [ha] at h
      simp only [Bool.not_true, Bool.false_eq_true, if_false] at h
      by_cases hbs : p.start > p.pause_started.getD t
      · rw [if_pos hbs] at h; simp at h
      · rw [if_neg hbs] at h
        obtain ⟨h1, h2, h3, h4⟩ :=
          sectionScan_section p.sections p.start (p.pause_started.getD t) 0 s h
        simp only [Nat.sub_zero] at h2 h3 h4
        exact ⟨rfl, h2, h3, h4⟩

/-- Claim C9: whenever set_unpause reaches its splice branch (the pause
instant resolves to a section), the pause instant is strictly after that
section running start time, the pre-pause remainder duration is strictly
positive, and set_unpause returns normally (the assert cannot fire). -/
theorem unpause_splice_guard (p : Pomodoro) (ps pe : Int) (s : Nat)
    (hm : p.pause_started = some ps)
    (hs : p.current_section ps = CurrentSection.Section s) :
    p.sectionStartTime s < ps ∧
    0 < ps - p.sectionStartTime s ∧
    (p.set_unpause pe).isSome = true := by
  obtain ⟨ha, hlen, h3, h4⟩ := current_section_bounds p ps s hs
  rw [hm, Option.getD_some] at h3 h4
  refine ⟨h3, by omega, ?_⟩
  unfold Pomodoro.set_unpause
  rw [hm]
  simp only [hs]
  rw [if_pos (by omega : ps - p.sectionStartTime s > 0)]
  rfl

/-- Witness for unpause_splice_guard on a concrete paused session. -/
theorem unpause_splice_guard_witness :
    pomoPausedAt3.pause_started = some 3 ∧
    pomoPausedAt3.current_section 3 = CurrentSection.Section 0 ∧
    pomoPausedAt3.sectionStartTime 0 < 3 ∧
    (pomoPausedAt3.set_unpause 8).isSome = true := by
  have h := unpause_splice_guard pomoPausedAt3 3 8 0 rfl (by decide)
  exact ⟨rfl, by decide, h.1, h.2.2⟩

/-- Shape of the pause splice on the section list: overwriting index s and
inserting at s + 1 and s + 2 replaces the single section at s by the three
given sections, leaving everything before and after unchanged and in order. -/
theorem insertAt_splice (l : List PomodoroSection) :
    ∀ (s : Nat) (a x y : PomodoroSection), s < l.length →
      insertAt (insertAt (l.set s a) (s + 1) x) (s + 2) y =
        l.take s ++ a :: x :: y :: l.drop (s + 1) := by
  induction l with
  | nil => intro s a x y h; simp at h
  | cons c rest ih =>
      intro s a x y h
      cases s with
      | zero => simp [insertAt]
      | succ n =>
          have hn : n < rest.length := by
            simpa using Nat.lt_of_succ_lt_succ h
          simp only [List.set_cons_succ, insertAt, List.take_succ_cons,
            List.drop_succ_cons, List.cons_append]
          exact congrArg (fun z => c :: z) (ih n a x y hn)

/-- Splitting the duration sum of a list at an in-bounds index. -/
theorem sumDur_decomp (l : List PomodoroSection) (s : Nat) (sec : PomodoroSection)
    (h : l[s]? = some sec) :
    sumDur l = sumDur (l.take s) + sec.duration + sumDur (l.drop (s + 1)) := by
  obtain ⟨hlt, hget⟩ := List.getElem?_eq_some.mp h
  conv_lhs => rw [← List.take_append_drop s l]
  rw [sumDur_append, List.drop_eq_getElem_cons hlt, sumDur_cons, hget]
  ring

/-- Setting the pause marker does not change which section any effective
instant falls into: on a previously unpaused session, every query after
set_pause pp resolves as a query of the original session at pp. -/
theorem current_section_set_pause (p : Pomodoro) (pp t : Int)
    (hN : p.pause_started = none) :
    (p.set_pause pp).current_section t = p.current_section pp := by
  simp [Pomodoro.current_section, Pomodoro.set_pause, hN]

/-- Claim C1: pausing at an instant pp strictly inside section s of an
active unpaused session and unpausing at q replaces that section by a
pre-pause remainder of the original kind, an inserted Break of duration
q - pp, and a post-pause remainder of the original kind; the two remainders
sum to the original duration, the total duration grows by exactly q - pp,
and all other sections are unchanged and in their original order
(take s and drop (s + 1) are preserved verbatim). -/
theorem pause_unpause_splice (p : Pomodoro) (pp q : Int) (s : Nat)
    (sec : PomodoroSection)
    (hN : p.pause_started = none)
    (hS : p.current_section pp = CurrentSection.Section s)
    (hsec : p.sections[s]? = some sec) :
    ((p.set_pause pp).set_unpause q =
      some { p with
             sections := p.sections.take s ++
               { duration := pp - p.sectionStartTime s, state := sec.state } ::
               { duration := q - pp, state := PomodoroState.Break } ::
               { duration := sec.duration - (pp - p.sectionStartTime s)
                 state := sec.state } ::
               p.sections.drop (s + 1)
             pause_started := none }) ∧
    (pp - p.sectionStartTime s) +
      (sec.duration - (pp - p.sectionStartTime s)) = sec.duration ∧
    sumDur (p.sections.take s ++
               { duration := pp - p.sectionStartTime s, state := sec.state } ::
               { duration := q - pp, state := PomodoroState.Break } ::
               { duration := sec.duration - (pp - p.sectionStartTime s)
                 state := sec.state } ::
               p.sections.drop (s + 1)) = sumDur p.sections + (q - pp) := by
  obtain ⟨ha, hlen, h3, h4⟩ := current_section_bounds p pp s hS
  rw [hN, Option.getD_none] at h3 h4
  have hcs : (p.set_pause pp).current_section pp = CurrentSection.Section s := by
    rw [current_section_set_pause p pp pp hN, hS]
  have hsum := sumDur_decomp p.sections s sec hsec
  refine ⟨?_, by ring, ?_⟩
  · unfold Pomodoro.set_unpause
    simp only [Pomodoro.set_pause] at hcs ⊢
    simp only [hcs]
    have hsst : ({ p with pause_started := some pp } : Pomodoro).sectionStartTime s
        = p.sectionStartTime s := rfl
    rw [hsst, if_pos (by omega : pp - p.sectionStartTime s > 0)]
    have hget : ({ p with pause_started := some pp } : Pomodoro).sections[s]? = some sec := hsec
    rw [hget, Option.getD_some]
    rw [insertAt_splice p.sections s _ _ _ hlen]
  · rw [sumDur_append, sumDur_cons, sumDur_cons, sumDur_cons]
    rw [hsum]
    ring

theorem set_pause_sections (p : Pomodoro) (pp : Int) :
    (p.set_pause pp).sections = p.sections := rfl

theorem set_pause_sectionStartTime (p : Pomodoro) (pp : Int) (s : Nat) :
    (p.set_pause pp).sectionStartTime s = p.sectionStartTime s := rfl

/-- The session obtained by splicing the scenario session at pause 3 and
resume 8: Work 3, Break 5, Work 7, Break 5, Work 10. -/
def pomoSpliced : Pomodoro :=
  { sections := [{ duration := 3, state := PomodoroState.Work },
                 { duration := 5, state := PomodoroState.Break },
                 { duration := 7, state := PomodoroState.Work },
                 { duration := 5, state := PomodoroState.Break },
                 { duration := 10, state := PomodoroState.Work }]
    start := 0
    active := true
    pause_started := none }

/-- Witness for pause_unpause_splice: pausing the 2p10b5 session at 3 and
unpausing at 8 yields Work 3, Break 5, Work 7, Break 5, Work 10. -/
theorem pause_unpause_splice_witness :
    pomoTwoReps.pause_started = none ∧
    pomoTwoReps.current_section 3 = CurrentSection.Section 0 ∧
    pomoTwoReps.sections[0]? = some { duration := 10, state := PomodoroState.Work } ∧
    (pomoTwoReps.set_pause 3).set_unpause 8 = some pomoSpliced ∧
    sumDur pomoSpliced.sections = sumDur pomoTwoReps.sections + (8 - 3) := by
  have h := pause_unpause_splice pomoTwoReps 3 8 0
    { duration := 10, state := PomodoroState.Work } rfl (by decide) (by decide)
  refine ⟨rfl, by decide, by decide, ?_, by decide⟩
  rw [h.1]
  decide

/-- Claim C8 counterexample: on a session whose sections are all strictly
positive, pausing at 5 and unpausing at the same instant 5 is not rejected:
the splice inserts a Break section of duration 0. -/
theorem unpause_zero_break :
    allPositive pomoShortWork.sections ∧
    (pomoShortWork.set_pause 5).set_unpause 5 = some pomoZeroBreak ∧
    ¬ allPositive pomoZeroBreak.sections := by
  refine ⟨?_, by decide, ?_⟩
  · intro sec hmem
    simp only [pomoShortWork, List.mem_cons, List.not_mem_nil, or_false] at hmem
    rw [hmem]
    decide
  · intro hpos
    have h0 := hpos { duration := 0, state := PomodoroState.Break } (by decide)
    exact absurd h0 (by decide)

/-- Claim C8 amended: if every section of the session is strictly positive
and the unpause instant is strictly after the pause instant, then every
section of the session produced by set_pause followed by set_unpause is
still strictly positive. (The code does not reject q at or before p: in
that case it inserts a Break of duration q - p at most 0, as the
counterexample shows, so the claim needs the hypothesis p < q.) -/
theorem pause_unpause_all_positive (p : Pomodoro) (pp q : Int) (p2 : Pomodoro)
    (hall : allPositive p.sections) (hpq : pp < q)
    (h : (p.set_pause pp).set_unpause q = some p2) :
    allPositive p2.sections := by
  unfold Pomodoro.set_unpause at h
  rw [show (p.set_pause pp).pause_started = some pp from rfl] at h
  cases hcs : (p.set_pause pp).current_section pp with
  | Section s =>
      simp only [hcs] at h
      obtain ⟨ha, hlen, h3, h4⟩ := current_section_bounds (p.set_pause pp) pp s hcs
      simp only [show (p.set_pause pp).pause_started = some pp from rfl,
        Option.getD_some, set_pause_sectionStartTime, set_pause_sections] at h3 h4 hlen h
      rw [if_pos (by omega : pp - p.sectionStartTime s > 0)] at h
      rw [List.getElem?_eq_getElem hlen, Option.getD_some] at h h4
      rw [insertAt_splice p.sections s _ _ _ hlen] at h
      simp only [Option.some.injEq] at h
      subst h
      intro sec hmem
      simp only [List.mem_append, List.mem_cons] at hmem
      rcases hmem with hm | hm | hm | hm | hm
      · exact hall sec (List.mem_of_mem_take hm)
      · rw [hm]; simpa using by omega
      · rw [hm]; simpa using by omega
      · rw [hm]; simpa using by omega
      · exact hall sec (List.mem_of_mem_drop hm)
  | Inactive =>
      simp only [hcs, Option.some.injEq] at h
      subst h
      exact hall
  | BeforeStart =>
      simp only [hcs, Option.some.injEq] at h
      subst h
      exact hall
  | AferEnd =>
      simp only [hcs, Option.some.injEq] at h
      subst h
      exact hall

/-- Witness for pause_unpause_all_positive on the spliced scenario session. -/
theorem pause_unpause_all_positive_witness :
    allPositive pomoSpliced.sections := by
  have hsplice : (pomoTwoReps.set_pause 3).set_unpause 8 = some pomoSpliced := by
    decide
  exact pause_unpause_all_positive pomoTwoReps 3 8 pomoSpliced
    (by intro sec hmem; fin_cases hmem <;> decide) (by decide) hsplice

/-- k alternating Work/Break pairs; proof-side normal form for the prefix
built by the first k iterations of the section-building loop. -/
def wbPairs (w b : Int) : Nat → List PomodoroSection
  | 0 => []
  | k + 1 => wbPairs w b k ++
      [{ duration := w, state := PomodoroState.Work },
       { duration := b, state := PomodoroState.Break }]

theorem wbPairs_length (w b : Int) : ∀ k, (wbPairs w b k).length = 2 * k := by
  intro k
  induction k with
  | zero => rfl
  | succ n ih =>
      simp only [wbPairs, List.length_append, ih, List.length_cons, List.length_nil]
      omega

theorem wbPairs_getElem? (w b : Int) :
    ∀ k i, i < 2 * k →
      (wbPairs w b k)[i]? =
        some (if i % 2 = 0
              then { duration := w, state := PomodoroState.Work }
              else { duration := b, state := PomodoroState.Break }) := by
  intro k
  induction k with
  | zero => intro i h; omega
  | succ n ih =>
      intro i h
      rw [wbPairs]
      by_cases hi : i < 2 * n
      · rw [List.getElem?_append]
        rw [wbPairs_length] at *
        rw [if_pos hi]
        exact ih i hi
      · rw [List.getElem?_append_right (by rw [wbPairs_length]; omega)]
        rw [wbPairs_length]
        by_cases hi2 : i = 2 * n
        · rw [show i - 2 * n = 0 by omega, show i % 2 = 0 by omega]
          rfl
        · rw [show i - 2 * n = 1 by omega, show i % 2 = 1 by omega]
          rfl

/-- The first k iterations of the building loop (k strictly below the last
index bound) produce exactly k Work/Break pairs. -/
theorem buildLoop_prefix (R : Nat) (w b : Int) :
    ∀ k, k ≤ R - 1 →
      (List.range k).foldl
        (fun acc i =>
          let acc2 := acc ++ [{ duration := w, state := PomodoroState.Work }]
          if i < R - 1 then
            acc2 ++ [{ duration := b, state := PomodoroState.Break }]
          else
            acc2) [] = wbPairs w b k := by
  intro k
  induction k with
  | zero => intro _; rfl
  | succ n ih =>
      intro hk
      rw [List.range_succ, List.foldl_append, ih (by omega)]
      simp only [List.foldl_cons, List.foldl_nil]
      rw [if_pos (by omega : n < R - 1)]
      simp [wbPairs]

/-- The building loop produces r - 1 Work/Break pairs followed by a final
Work section (the loop body skips the Break push on the last index). -/
theorem buildSections_eq (st : PomodoroSetting) (hr : 1 ≤ st.repetitions) :
    buildSections st =
      wbPairs st.work_time st.break_time (st.repetitions - 1) ++
        [{ duration := st.work_time, state := PomodoroState.Work }] := by
  unfold buildSections
  rw [show st.repetitions = (st.repetitions - 1) + 1 by omega]
  rw [List.range_succ, List.foldl_append,
    buildLoop_prefix ((st.repetitions - 1) + 1) st.work_time st.break_time
      (st.repetitions - 1) (by omega)]
  simp only [List.foldl_cons, List.foldl_nil]
  rw [if_neg (by omega : ¬ (st.repetitions - 1 < (st.repetitions - 1) + 1 - 1))]
  rw [Nat.add_sub_cancel]

/-- Claim C5: for every setting with at least one repetition and strictly
positive work and break durations, to_pomodoro produces exactly
2r - 1 sections that strictly alternate (even indices are Work sections of
the work duration, odd indices are Break sections of the break duration,
so the list starts and ends with Work), with active = true and no pause
marker set. -/
theorem to_pomodoro_shape (st : PomodoroSetting) (hr : 1 ≤ st.repetitions)
    (hw : 0 < st.work_time) (hb : 0 < st.break_time) :
    (st.to_pomodoro).sections.length = 2 * st.repetitions - 1 ∧
    (∀ i, i < 2 * st.repetitions - 1 →
      (st.to_pomodoro).sections[i]? =
        some (if i % 2 = 0
              then { duration := st.work_time, state := PomodoroState.Work }
              else { duration := st.break_time, state := PomodoroState.Break })) ∧
    (st.to_pomodoro).active = true ∧
    (st.to_pomodoro).pause_started = none := by
  have hsec : (st.to_pomodoro).sections = buildSections st := rfl
  rw [hsec, buildSections_eq st hr]
  refine ⟨?_, ?_, rfl, rfl⟩
  · simp only [List.length_append, wbPairs_length, List.length_cons, List.length_nil]
    omega
  · intro i hi
    by_cases hlt : i < 2 * (st.repetitions - 1)
    · rw [List.getElem?_append]
      rw [wbPairs_length]
      rw [if_pos hlt]
      exact wbPairs_getElem? _ _ _ i hlt
    · rw [List.getElem?_append_right (by rw [wbPairs_length]; omega)]
      rw [wbPairs_length]
      rw [show i - 2 * (st.repetitions - 1) = 0 by omega,
        show i % 2 = 0 by omega]
      rfl

/-- Witness for to_pomodoro_shape on the 2p10b5 setting. -/
theorem to_pomodoro_shape_witness :
    1 ≤ settingTwoReps.repetitions ∧
    0 < settingTwoReps.work_time ∧
    0 < settingTwoReps.break_time ∧
    (settingTwoReps.to_pomodoro).sections.length = 2 * settingTwoReps.repetitions - 1 ∧
    (settingTwoReps.to_pomodoro).active = true ∧
    (settingTwoReps.to_pomodoro).pause_started = none := by
  have h := to_pomodoro_shape settingTwoReps (by decide) (by decide) (by decide)
  exact ⟨by decide, by decide, by decide, h.1, h.2.2.1, h.2.2.2⟩

/-- Truncating division is antitone in a positive divisor when the dividend
is nonnegative. -/
theorem tdiv_antitone_right (a r : Int) (ha : 0 ≤ a) (hr : 1 ≤ r) :
    Int.tdiv a (r + 1) ≤ Int.tdiv a r := by
  obtain ⟨A, rfl⟩ : ∃ A : Nat, (A : Int) = a := ⟨a.toNat, Int.toNat_of_nonneg ha⟩
  obtain ⟨R, rfl⟩ : ∃ R : Nat, (R : Int) = r := ⟨r.toNat, Int.toNat_of_nonneg (by omega)⟩
  rw [show ((R : Int) + 1) = ((R + 1 : Nat) : Int) by push_cast; ring]
  rw [← Int.ofNat_tdiv, ← Int.ofNat_tdiv]
  have hR : 0 < R := by exact_mod_cast hr
  exact_mod_cast Nat.div_le_div_left (Nat.le_succ R) hR

/-- Truncating division of nonnegative integers with a larger divisor is 0. -/
theorem tdiv_eq_zero_of_lt_int (a r : Int) (ha : 0 ≤ a) (h : a < r) :
    Int.tdiv a r = 0 := by
  obtain ⟨A, rfl⟩ : ∃ A : Nat, (A : Int) = a := ⟨a.toNat, Int.toNat_of_nonneg ha⟩
  obtain ⟨R, rfl⟩ : ∃ R : Nat, (R : Int) = r := ⟨r.toNat, Int.toNat_of_nonneg (by omega)⟩
  rw [← Int.ofNat_tdiv, Nat.div_eq_of_lt (by exact_mod_cast h)]
  rfl

/-- Value of the break correction term once the divisor exceeds the break:
b * (r - 1) / r = b - 1 for 1 <= b < r. -/
theorem bterm_eq (b r : Int) (hb : 1 ≤ b) (hbr : b < r) :
    Int.tdiv (b * (r - 1)) r = b - 1 := by
  obtain ⟨B, rfl⟩ : ∃ B : Nat, (B : Int) = b := ⟨b.toNat, Int.toNat_of_nonneg (by omega)⟩
  obtain ⟨R, rfl⟩ : ∃ R : Nat, (R : Int) = r := ⟨r.toNat, Int.toNat_of_nonneg (by omega)⟩
  have hB : 1 ≤ B := by exact_mod_cast hb
  have hBR : B < R := by exact_mod_cast hbr
  rw [show (B : Int) * ((R : Int) - 1) = ((B * (R - 1) : Nat) : Int) by
    push_cast [Nat.cast_sub (show 1 ≤ R by omega)]; ring]
  rw [← Int.ofNat_tdiv]
  have hnat : B * (R - 1) / R = B - 1 := by
    have hkey : B * (R - 1) = (R - B) + R * (B - 1) := by
      zify [show 1 ≤ R by omega, show B ≤ R by omega, hB]
      ring
    rw [hkey, Nat.add_mul_div_left _ _ (show 0 < R by omega),
      Nat.div_eq_of_lt (show R - B < R by omega)]
    omega
  rw [hnat]
  push_cast [Nat.cast_sub hB]
  ring

theorem fCalc_at_one (d b : Int) : fCalc d b 1 = d := by
  unfold fCalc
  rw [Int.tdiv_one, show b * ((1 : Int) - 1) = 0 by ring, Int.zero_tdiv]
  ring

/-- Beyond both d and b the work-time formula is constant. -/
theorem fCalc_plateau (d b r : Int) (hd : 0 ≤ d) (hb : 0 ≤ b)
    (hr1 : d < r) (hr2 : b < r) :
    fCalc d b r = if b = 0 then 0 else 1 - b := by
  unfold fCalc
  rw [tdiv_eq_zero_of_lt_int d r hd hr1]
  by_cases h0 : b = 0
  · subst h0
    rw [if_pos rfl, show (0 : Int) * (r - 1) = 0 by ring, Int.zero_tdiv]
    ring
  · rw [if_neg h0, bterm_eq b r (by omega) hr2]
    ring

/-- Value of the work-time formula at r = d when the break fits below d. -/
theorem fCalc_at_d (d b : Int) (hb : 1 ≤ b) (hbd : b < d) :
    fCalc d b d = 2 - b := by
  unfold fCalc
  rw [bterm_eq b d hb hbd, Int.tdiv_self (by omega : d ≠ 0)]
  ring

theorem fCalc_at_d_zero_break (d : Int) (hd : 1 ≤ d) : fCalc d 0 d = 1 := by
  unfold fCalc
  rw [Int.tdiv_self (by omega : d ≠ 0), show (0 : Int) * (d - 1) = 0 by ring,
    Int.zero_tdiv]
  ring

/-- If a loop step did not exit, the deviation at its counter was at most
the stored previous deviation. -/
theorem adjustLoop_none_first (d b w : Int) (fuel : Nat) (reps wd : Int)
    (h : adjustLoop d b w (fuel + 1) reps wd = none) :
    wDelta d b w reps ≤ wd := by
  simp only [adjustLoop] at h
  by_cases hc : wDelta d b w reps > wd
  · rw [if_pos hc] at h
    exact absurd h (by simp)
  · omega

/-- A run of the loop that exhausts its fuel without exiting forces the
deviation to be nonincreasing along all the visited counters. -/
theorem adjustLoop_none_chain (d b w : Int) :
    ∀ (fuel : Nat) (reps wd : Int),
      adjustLoop d b w fuel reps wd = none →
      ∀ k : Nat, k + 1 < fuel →
        wDelta d b w (reps + k + 1) ≤ wDelta d b w (reps + k) := by
  intro fuel
  induction fuel with
  | zero => intro reps wd _ k hk; omega
  | succ n ih =>
      intro reps wd h k hk
      have h1 : wDelta d b w reps ≤ wd := adjustLoop_none_first d b w n reps wd h
      have h2 : adjustLoop d b w n (reps + 1) (wDelta d b w reps) = none := by
        simp only [adjustLoop] at h
        rw [if_neg (by omega)] at h
        exact h
      cases k with
      | zero =>
          obtain ⟨m, rfl⟩ : ∃ m, n = m + 1 := ⟨n - 1, by omega⟩
          have h3 := adjustLoop_none_first d b w m (reps + 1)
            (wDelta d b w reps) h2
          simpa using h3
      | succ k2 =>
          have h4 := ih (reps + 1) (wDelta d b w reps) h2 k2 (by omega)
          have e1 : reps + ((k2 + 1 : Nat) : Int) = reps + 1 + (k2 : Int) := by
            push_cast
            ring
          rw [e1]
          exact h4

/-- Transitive closure of a step-nonincreasing chain. -/
theorem chain_mono (f : Int → Int) (reps : Int) (F : Nat)
    (hc : ∀ k : Nat, k + 1 < F → f (reps + k + 1) ≤ f (reps + k)) :
    ∀ n m : Nat, n ≤ m → m < F → f (reps + m) ≤ f (reps + n) := by
  intro n m
  induction m with
  | zero =>
      intro h1 _
      have : n = 0 := by omega
      subst this
      exact le_refl _
  | succ mm ih =>
      intro h1 h2
      by_cases hnm : n = mm + 1
      · subst hnm
        exact le_refl _
      · have hstep := hc mm (by omega)
        have hih := ih (by omega) (by omega)
        have e1 : reps + ((mm + 1 : Nat) : Int) = reps + (mm : Int) + 1 := by
          push_cast
          ring
        rw [e1]
        exact le_trans hstep hih

/-- Beyond max d b the deviation is constant. -/
theorem wDelta_plateau (d b w r : Int) (hd : 1 ≤ d) (hb : 0 ≤ b) (hw : 1 ≤ w)
    (hr : max d b < r) :
    wDelta d b w r = if b = 0 then w else w + b - 1 := by
  unfold wDelta
  rw [fCalc_plateau d b r (by omega) hb (by omega) (by omega)]
  by_cases h0 : b = 0
  · subst h0
    rw [if_pos rfl, if_pos rfl, zero_sub, abs_neg, abs_of_nonneg (by omega)]
  · rw [if_neg h0, if_neg h0, abs_of_nonpos (by omega)]
    ring

/-- The deviation dips strictly below its eventual plateau value: at r = 1
when d fits below b, and at r = d otherwise. -/
theorem wDelta_dip (d b w : Int) (hd : 1 ≤ d) (hb : 0 ≤ b) (hw : 1 ≤ w) :
    wDelta d b w (if d ≤ b then 1 else d) < wDelta d b w (max d b + 1) := by
  rw [wDelta_plateau d b w (max d b + 1) hd hb hw (by omega)]
  by_cases hdb : d ≤ b
  · have hb1 : 1 ≤ b := by omega
    rw [if_pos hdb, if_neg (by omega : ¬ b = 0)]
    unfold wDelta
    rw [fCalc_at_one, abs_lt]
    constructor <;> omega
  · rw [if_neg hdb]
    by_cases h0 : b = 0
    · subst h0
      rw [if_pos rfl]
      unfold wDelta
      rw [fCalc_at_d_zero_break d hd, abs_lt]
      constructor <;> omega
    · rw [if_neg h0]
      unfold wDelta
      rw [fCalc_at_d d b (by omega) (by omega), abs_lt]
      constructor <;> omega

/-- With a strictly positive work time the search loop exits: some amount
of fuel makes it return a repetition count. -/
theorem adjustLoop_terminates (d b w : Int) (hd : 1 ≤ d) (hb : 0 ≤ b)
    (hw : 1 ≤ w) :
    ∃ fuel r, adjustLoop d b w fuel 1 I64_MAX = some r := by
  set R0 : Int := max d b + 1 with hR0
  set F : Nat := R0.toNat + 1 with hF
  cases hres : adjustLoop d b w F 1 I64_MAX with
  | some r => exact ⟨F, r, hres⟩
  | none =>
      exfalso
      have hchain := adjustLoop_none_chain d b w F 1 I64_MAX hres
      set rstar : Int := if d ≤ b then 1 else d with hrs
      have hrs1 : 1 ≤ rstar := by rw [hrs]; split <;> omega
      have hrsR0 : rstar ≤ R0 := by
        rw [hrs, hR0]
        split <;> omega
      have hR01 : 1 ≤ R0 := by rw [hR0]; omega
      have hdip := wDelta_dip d b w hd hb hw
      rw [← hrs, ← hR0] at hdip
      have hmono := chain_mono (wDelta d b w) 1 F hchain
        (rstar - 1).toNat (R0 - 1).toNat (by omega) (by omega)
      have e1 : (1 : Int) + (((rstar - 1).toNat : Nat) : Int) = rstar := by
        rw [Int.toNat_of_nonneg (by omega)]
        ring
      have e2 : (1 : Int) + (((R0 - 1).toNat : Nat) : Int) = R0 := by
        rw [Int.toNat_of_nonneg (by omega)]
        ring
      rw [e1, e2] at hmono
      omega

/-- With work and break durations both 0 the deviation is d / r, which is
nonincreasing in r, so the loop never meets its exit condition. -/
theorem adjustLoop_zero_work_none :
    ∀ (fuel : Nat) (reps wd : Int), 1 ≤ reps →
      Int.tdiv 60 reps ≤ wd →
      adjustLoop 60 0 0 fuel reps wd = none := by
  intro fuel
  induction fuel with
  | zero => intro reps wd _ _; rfl
  | succ n ih =>
      intro reps wd hr hwd
      have hA : wDelta 60 0 0 reps = Int.tdiv 60 reps := by
        simp only [wDelta, fCalc, zero_mul, Int.zero_tdiv, sub_zero]
        exact abs_of_nonneg (Int.tdiv_nonneg (by norm_num) (by omega))
      simp only [adjustLoop, hA]
      rw [if_neg (by omega : ¬ Int.tdiv 60 reps > wd)]
      exact ih (reps + 1) (Int.tdiv 60 reps) (by omega)
        (tdiv_antitone_right 60 reps (by norm_num) hr)

/-- Claim C7 counterexample: for the setting with work and break durations
both 0 (obtainable from the parseable input 4p0b0) and end time 60 after
start 0, the search loop never exits: there is no repetition count at which
the deviation strictly increases over the previous step, so no amount of
fuel makes adjust_end_to return. -/
theorem adjust_zero_work_diverges : ¬ terminatesOn settingZeroWork 60 := by
  rintro ⟨fuel, o, h⟩
  have hnone : adjustLoop ((60 : Int) - settingZeroWork.start)
      settingZeroWork.break_time settingZeroWork.work_time fuel 1 I64_MAX = none := by
    rw [show (60 : Int) - settingZeroWork.start = 60 by decide,
      show settingZeroWork.break_time = 0 from rfl,
      show settingZeroWork.work_time = 0 from rfl]
    exact adjustLoop_zero_work_none fuel 1 I64_MAX (by norm_num)
      (by rw [Int.tdiv_one]; decide)
  rw [PomodoroSetting.adjust_end_to,
    if_pos (by decide : (60 : Int) > settingZeroWork.start)] at h
  simp only [hnone] at h
  exact absurd h (by simp)

/-- Claim C7 amended: for every setting whose work duration is strictly
positive (and nonnegative break duration, as produced by every parseable
input) and every end time strictly after start, the greedy search loop of
adjust_end_to terminates: the deviation strictly increases at some
repetition count, and adjust_end_to returns under enough fuel. With work
duration 0 the loop can run forever, as the counterexample shows. -/
theorem adjust_end_terminates (st : PomodoroSetting) (t : Int)
    (h1 : st.start < t) (h2 : 0 < st.work_time) (h3 : 0 ≤ st.break_time) :
    terminatesOn st t := by
  obtain ⟨fuel, r, hloop⟩ := adjustLoop_terminates (t - st.start)
    st.break_time st.work_time (by omega) h3 (by omega)
  have hsome : (st.adjust_end_to t fuel).isSome = true := by
    rw [PomodoroSetting.adjust_end_to, if_pos (by omega : t > st.start)]
    simp only [hloop]
    rfl
  obtain ⟨o, ho⟩ := Option.isSome_iff_exists.mp hsome
  exact ⟨fuel, o, ho⟩

/-- Witness for adjust_end_terminates on the classic 4p45b15 setting in
seconds with a three-hour end time. -/
theorem adjust_end_terminates_witness :
    settingClassic.start < 10800 ∧
    0 < settingClassic.work_time ∧
    0 ≤ settingClassic.break_time ∧
    terminatesOn settingClassic 10800 := by
  refine ⟨by decide, by decide, by decide, ?_⟩
  exact adjust_end_terminates settingClassic 10800 (by decide) (by decide) (by decide)
